import Mathlib

/-!
Verification of the sol stack-marshalling / function-invocation core.

This file shallowly embeds the parts of the repository needed to settle the
claims about it:

* `src/sol/function.hpp` — the invocation facade (`sol::function::call`,
  `operator()`, the four `invoke` overloads) and the callable-binder dispatch
  (`pusher<function_sig<...>>::set`, `set_memfx`, `set_isconvertible_fx`,
  `set_reference_fx`, `set_fx`).
* `src/sol/thread.hpp` — `thread::status`.
* `src/sol/table_iterator.hpp` — `table_iterator`.

Code of the repository that the build refers to but that is not present under
`src/` (the stack push/pop/check primitives of `stack.hpp`, the trampolines of
`function_types.hpp`, the overload resolver, the usertype lifetime manager and
the container conversion descriptors) is modelled from the specification, with
a doc comment starting `Modelled from the spec:` on each such definition.

The embedded runtime's stack is a `List Val`, bottom of the stack first, so
`lua_gettop` is `List.length` and pushes append on the right.
-/

set_option autoImplicit false

namespace Sol

/-- A runtime value on the embedded runtime's evaluation stack. -/
inductive Val where
  | vnil
  | vint (n : Int)
  | vstr (s : String)
  | vfun
  deriving Repr, DecidableEq

/-- The runtime's evaluation stack, bottom first: `lua_gettop` is `length`,
pushes append on the right. -/
abbrev Stack := List Val

/-- Stack height, `lua_gettop`. -/
def Stack.gettop (st : Stack) : Nat := List.length st

/-- A callee that completes without error, modelled by the list of result
values it produces from its argument list (the spec's external-collaborator
contract for `call(nargs, nresults)`, §6). -/
def LuaCallee := List Val → List Val

/-- Modelled from the spec: the runtime's result-count adjustment for
`call(nargs, nresults)` with `nresults = m ≥ 0` — the callee's results are
truncated to `m` values, or padded with nil up to `m` values. -/
def adjustResults (rs : List Val) (m : Nat) : List Val :=
  rs.take m ++ List.replicate (m - rs.length) Val.vnil

/-- Modelled from the spec: `lua_callk` on a stack whose top `n` slots are the
arguments and whose slot below them is the callee (behaviour `f`): the
function and arguments are consumed and the results are pushed — exactly `m`
of them when `nresults = some m`, all of them when `nresults = none`
(`LUA_MULTRET`). -/
def luacall (f : LuaCallee) (st : Stack) (n : Nat) (nresults : Option Nat) : Stack :=
  let base : List Val := List.take (Stack.gettop st - (n + 1)) st
  let args : List Val := List.drop (Stack.gettop st - n) st
  match nresults with
  | some m => base ++ adjustResults (f args) m
  | none => base ++ f args

/-- A requested result type of `function::call<Ret...>`. `tvoid` mirrors the
`void` specialisation; the other tags stand for concrete host types. -/
inductive Ty where
  | tvoid
  | tint
  | tstr
  deriving Repr, DecidableEq

/-- The number of results the facade requests from the runtime for a given
requested-type list: `sizeof...(Ret)` for typed calls, `0` for `void`, and
`LUA_MULTRET` (`none`) for the zero-types form (function.hpp, `invoke`). -/
def nresultsOf : List Ty → Option Nat
  | [] => none
  | [Ty.tvoid] => some 0
  | [_] => some 1
  | ts => some ts.length

/-- The value returned by `function::call<Ret...>`: nothing for `void`, a
single value for one requested type, a tuple of values for several, and the
lazy `function_result` handle (state pointer elided; `firstreturn` and
`returncount` kept) for the zero-types form. -/
inductive CallRes where
  | unitRes
  | single (v : Val)
  | tup (vs : List Val)
  | multi (firstreturn returncount : Int)
  deriving Repr, DecidableEq

/-- `sol::function::call<Ret...>(args...)` from `src/sol/function.hpp`:
push the callable, `multi_push` the arguments, then dispatch on the requested
result types exactly as the four `invoke` overloads do:

* `types<>`: record `stacksize`, `firstreturn = max(1, stacksize - n)`, call
  with `LUA_MULTRET`, and build `function_result(L, firstreturn, poststacksize
  - (firstreturn - 1))`, leaving the results on the stack.
* `types<void>`: call requesting `0` results and return nothing.
* `types<Ret>`: call requesting `1` result and `stack::pop` it.
* `types<Ret...>`: call requesting `sizeof...(Ret)` results and `stack::pop`
  the tuple.

`stack::pop` itself is not under `src/`; modelled from the spec (§4.1): it
consumes exactly the declared number of slots and yields their values. The
returned pair is (final stack, returned value). -/
def callF (f : LuaCallee) (st0 : Stack) (requested : List Ty) (args : List Val) :
    Stack × CallRes :=
  let st2 : Stack := st0 ++ Val.vfun :: args
  let n : Nat := args.length
  match requested with
  | [] =>
      let stacksize : Int := Stack.gettop st2
      let firstreturn : Int := max 1 (stacksize - n)
      let st3 := luacall f st2 n none
      let poststacksize : Int := Stack.gettop st3
      let returncount : Int := poststacksize - (firstreturn - 1)
      (st3, CallRes.multi firstreturn returncount)
  | [Ty.tvoid] =>
      (luacall f st2 n (some 0), CallRes.unitRes)
  | [_] =>
      let st3 := luacall f st2 n (some 1)
      (List.take (Stack.gettop st3 - 1) st3,
       CallRes.single ((List.drop (Stack.gettop st3 - 1) st3).headD Val.vnil))
  | ts =>
      let m := ts.length
      let st3 := luacall f st2 n (some m)
      (List.take (Stack.gettop st3 - m) st3,
       CallRes.tup (List.drop (Stack.gettop st3 - m) st3))

/-- The stack immediately after the invocation step (`luacall`) of
`function::call<Ret...>`, before any result conversion pops. -/
def postInvokeStack (f : LuaCallee) (st0 : Stack) (requested : List Ty)
    (args : List Val) : Stack :=
  luacall f (st0 ++ Val.vfun :: args) args.length (nresultsOf requested)

theorem adjustResults_length (rs : List Val) (m : Nat) :
    (adjustResults rs m).length = m := by
  simp only [adjustResults, List.length_append, List.length_take, List.length_replicate]
  omega

theorem gettop_append (a b : List Val) :
    Stack.gettop ((a : Stack) ++ (b : List Val)) = a.length + b.length := by
  show (List.append a b).length = a.length + b.length
  simp

/-- Splitting the pre-call stack: `luacall` on `st0 ++ fun :: args` with
argument count `args.length` keeps `st0` and appends the (adjusted) results. -/
theorem luacall_eq (f : LuaCallee) (st0 : Stack) (args : List Val)
    (nres : Option Nat) :
    luacall f (st0 ++ Val.vfun :: args) args.length nres =
      st0 ++ (match nres with
              | some m => adjustResults (f args) m
              | none => f args) := by
  have hst : (st0 ++ Val.vfun :: args) =
      ((st0 ++ [Val.vfun]) ++ (args : List Val)) := by
    show List.append st0 (Val.vfun :: args) =
      List.append (List.append st0 [Val.vfun]) args
    simp
  have htop : Stack.gettop (st0 ++ Val.vfun :: args) =
      st0.length + (args.length + 1) := by
    rw [gettop_append]; simp
  have hbase : List.take (Stack.gettop (st0 ++ Val.vfun :: args) -
      (args.length + 1)) (st0 ++ Val.vfun :: args) = st0 := by
    rw [htop]
    have : st0.length + (args.length + 1) - (args.length + 1) = st0.length := by omega
    rw [this]
    show List.take st0.length (List.append st0 (Val.vfun :: args)) = st0
    exact List.take_left st0 (Val.vfun :: args)
  have hargs : List.drop (Stack.gettop (st0 ++ Val.vfun :: args) -
      args.length) (st0 ++ Val.vfun :: args) = args := by
    rw [htop, hst]
    have : st0.length + (args.length + 1) - args.length = st0.length + 1 := by omega
    rw [this]
    exact List.drop_left' (by simp)
  unfold luacall
  cases nres with
  | some m => simp only [hbase, hargs]
  | none => simp only [hbase, hargs]

theorem adjustResults_zero (rs : List Val) : adjustResults rs 0 = [] := by
  simp [adjustResults]

theorem adjustResults_one (rs : List Val) :
    adjustResults rs 1 = [rs.headD Val.vnil] := by
  cases rs <;> simp [adjustResults]

/-- The number of results a completed call leaves for the caller: the declared
count for typed requests, the callee's dynamic result count for the
zero-types (`LUA_MULTRET`) form. -/
def declaredResultCount (f : LuaCallee) (requested : List Ty) (args : List Val) : Nat :=
  match nresultsOf requested with
  | some m => m
  | none => (f args).length

/-- Evaluation of the `types<>` (multi-result) branch of `function::call`. -/
theorem callF_nil_eq (f : LuaCallee) (st0 : Stack) (args : List Val) :
    callF f st0 [] args =
      (st0 ++ f args,
       CallRes.multi ((st0.length : Int) + 1) ((f args).length : Int)) := by
  unfold callF
  simp only [luacall_eq]
  have h2 : Stack.gettop (st0 ++ Val.vfun :: args) = st0.length + (args.length + 1) := by
    rw [gettop_append]; simp
  have h3 : Stack.gettop (st0 ++ f args) = st0.length + (f args).length := gettop_append _ _
  rw [h2, h3]
  have hmax : max 1 (((st0.length + (args.length + 1) : Nat) : Int) - (args.length : Nat)) =
      (st0.length : Int) + 1 := by
    push_cast
    omega
  rw [hmax]
  simp only [Prod.mk.injEq, CallRes.multi.injEq, true_and]
  push_cast
  omega

/-- Evaluation of the `types<void>` branch of `function::call`. -/
theorem callF_void_eq (f : LuaCallee) (st0 : Stack) (args : List Val) :
    callF f st0 [Ty.tvoid] args = (st0, CallRes.unitRes) := by
  unfold callF
  simp only [luacall_eq, adjustResults_zero, List.append_nil]

/-- Evaluation of the single-requested-type branch of `function::call`. -/
theorem callF_single_eq (f : LuaCallee) (st0 : Stack) (t : Ty) (args : List Val)
    (h : t ≠ Ty.tvoid) :
    callF f st0 [t] args = (st0, CallRes.single ((f args).headD Val.vnil)) := by
  have harr : ∀ (rs : List Val),
      (List.take (Stack.gettop (st0 ++ adjustResults rs 1) - 1) (st0 ++ adjustResults rs 1),
       CallRes.single ((List.drop (Stack.gettop (st0 ++ adjustResults rs 1) - 1)
          (st0 ++ adjustResults rs 1)).headD Val.vnil)) =
        (st0, CallRes.single (rs.headD Val.vnil)) := by
    intro rs
    rw [adjustResults_one]
    have htop : Stack.gettop (st0 ++ [rs.headD Val.vnil]) = st0.length + 1 := by
      rw [gettop_append]; simp
    rw [htop]
    have h1 : st0.length + 1 - 1 = st0.length := by omega
    rw [h1]
    have htake : List.take st0.length (st0 ++ [rs.headD Val.vnil]) = st0 :=
      List.take_left st0 [rs.headD Val.vnil]
    have hdrop : List.drop st0.length (st0 ++ [rs.headD Val.vnil]) = [rs.headD Val.vnil] :=
      List.drop_left st0 [rs.headD Val.vnil]
    rw [htake, hdrop]
    rfl
  cases t with
  | tvoid => exact absurd rfl h
  | tint =>
      unfold callF
      simp only [luacall_eq]
      exact harr (f args)
  | tstr =>
      unfold callF
      simp only [luacall_eq]
      exact harr (f args)

/-- Evaluation of the several-requested-types (tuple) branch of
`function::call`. -/
theorem callF_tuple_eq (f : LuaCallee) (st0 : Stack) (t1 t2 : Ty) (ts : List Ty)
    (args : List Val) :
    callF f st0 (t1 :: t2 :: ts) args =
      (st0, CallRes.tup (adjustResults (f args) (ts.length + 2))) := by
  unfold callF
  simp only [luacall_eq]
  have hm : (t1 :: t2 :: ts).length = ts.length + 2 := by simp
  have htop : Stack.gettop (st0 ++ adjustResults (f args) (t1 :: t2 :: ts).length) =
      st0.length + (ts.length + 2) := by
    rw [gettop_append, adjustResults_length, hm]
  rw [htop]
  have h1 : st0.length + (ts.length + 2) - (t1 :: t2 :: ts).length = st0.length := by
    rw [hm]; omega
  rw [h1]
  have hlen : st0.length = (st0 : List Val).length := rfl
  rw [List.take_left' hlen.symm, List.drop_left' hlen.symm, hm]

/-- C1, counterexample: with one requested result type (`call<int>` with no
arguments, empty pre-call stack, callee producing one value), the claim
demands a post-call stack height of `pre + 1`, but the facade pops the result
while converting it, leaving the stack at its pre-call height `0`. -/
theorem c1_counterexample :
    ¬ ((callF (fun _ => [Val.vint 7]) ([] : Stack) [Ty.tint] []).1.gettop =
        Stack.gettop ([] : Stack) + 1) := by
  decide

/-- C1, amended: for every call through the invocation facade that completes
without error, the stack height immediately after the invocation step equals
the pre-call height plus the number of results (`sizeof...(Ret)` when result
types were requested, `0` for a void call, the dynamic result count for the
zero-types form); the typed forms then consume their results during
conversion, so the stack height after `call` returns equals the pre-call
height, while for the zero-types form the `function_result` handle's
`returncount` equals the dynamic number of results the callee pushed and the
post-call height equals the pre-call height plus that `returncount`. -/
theorem c1_amended (f : LuaCallee) (st0 : Stack) (args : List Val) :
    (∀ requested, (postInvokeStack f st0 requested args).gettop =
        st0.gettop + declaredResultCount f requested args)
    ∧ ((callF f st0 [] args).1.gettop = st0.gettop + (f args).length
        ∧ (callF f st0 [] args).2 =
            CallRes.multi ((st0.gettop : Int) + 1) ((f args).length : Int))
    ∧ (∀ requested, requested ≠ [] →
        (callF f st0 requested args).1.gettop = st0.gettop) := by
  refine ⟨?_, ?_, ?_⟩
  · intro requested
    unfold postInvokeStack declaredResultCount
    rw [luacall_eq]
    cases nresultsOf requested with
    | some m => rw [gettop_append, adjustResults_length]; rfl
    | none => rw [gettop_append]; rfl
  · rw [callF_nil_eq]
    exact ⟨gettop_append _ _, rfl⟩
  · intro requested hne
    match requested with
    | [Ty.tvoid] => rw [callF_void_eq]
    | [Ty.tint] => rw [callF_single_eq f st0 Ty.tint args (by decide)]
    | [Ty.tstr] => rw [callF_single_eq f st0 Ty.tstr args (by decide)]
    | t1 :: t2 :: ts => rw [callF_tuple_eq]

/-- C1, amended, witness: a concrete typed call ends at the pre-call stack
height. -/
theorem c1_amended_witness :
    ([Ty.tint] : List Ty) ≠ [] ∧
      (callF (fun _ => [Val.vint 7]) [Val.vint 5] [Ty.tint] [Val.vint 2]).1.gettop =
        Stack.gettop [Val.vint 5] :=
  ⟨by decide,
   (c1_amended (fun _ => [Val.vint 7]) [Val.vint 5] [Val.vint 2]).2.2 [Ty.tint] (by decide)⟩

/-- C4: `function::call<Ret...>(args...)` returns a single value converted
from the stack when exactly one non-void result type is requested (the
callee's first result, nil-padded if it produced none), a tuple of all
requested types when several are requested (the callee's results adjusted to
the requested arity), and a lazily-converted `function_result` handle (first
return slot and dynamic return count, results left unconverted on the stack)
when zero are requested; when the single requested type is `void`, the call
requests zero results and returns nothing, leaving the stack at its pre-call
height. -/
theorem c4_call_result_shapes (f : LuaCallee) (st0 : Stack) (args : List Val) :
    (∀ t, t ≠ Ty.tvoid →
        (callF f st0 [t] args).2 = CallRes.single ((f args).headD Val.vnil))
    ∧ (∀ t1 t2 ts, (callF f st0 (t1 :: t2 :: ts) args).2 =
        CallRes.tup (adjustResults (f args) (ts.length + 2)))
    ∧ ((callF f st0 [] args).2 =
        CallRes.multi ((st0.gettop : Int) + 1) ((f args).length : Int))
    ∧ (callF f st0 [Ty.tvoid] args = (st0, CallRes.unitRes)
        ∧ nresultsOf [Ty.tvoid] = some 0) := by
  refine ⟨?_, ?_, ?_, ?_, rfl⟩
  · intro t ht
    rw [callF_single_eq f st0 t args ht]
  · intro t1 t2 ts
    rw [callF_tuple_eq]
  · rw [callF_nil_eq]
    rfl
  · exact callF_void_eq f st0 args

/-- C4, witness: `call<int>` on a callee producing `7` returns the single
value `7`. -/
theorem c4_call_result_shapes_witness :
    Ty.tint ≠ Ty.tvoid ∧
      (callF (fun _ => [Val.vint 7]) ([] : Stack) [Ty.tint] [Val.vint 2]).2 =
        CallRes.single (Val.vint 7) :=
  ⟨by decide,
   (c4_call_result_shapes (fun _ => [Val.vint 7]) ([] : Stack) [Val.vint 2]).1
     Ty.tint (by decide)⟩

/-- A declared parameter kind of an overload candidate. -/
inductive PTy where
  | pint
  | pstr
  deriving Repr, DecidableEq

/-- Modelled from the spec: the Conversion Registry checker for a declared
parameter kind against a stack slot, with strict checking enabled (§4.2): an
int parameter accepts a number slot, a string parameter accepts a string
slot (`stack.hpp` is not under `src/`). -/
def checker : PTy → Val → Bool
  | PTy.pint, Val.vint _ => true
  | PTy.pstr, Val.vstr _ => true
  | _, _ => false

/-- An overload-set candidate: its declared (non-variadic) parameter kinds
and its behaviour when invoked. -/
structure Candidate where
  params : List PTy
  behavior : LuaCallee

/-- Modelled from the spec (§4.4): a candidate accepts a call iff the
runtime-supplied argument count equals its declared arity and every argument
passes its declared parameter's checker. -/
def accepts (c : Candidate) (args : List Val) : Bool :=
  (c.params.length == args.length) &&
    (List.zip c.params args).all (fun pv => checker pv.1 pv.2)

/-- An Overload Resolution Error, carrying the received argument count
(§4.4, §7). -/
structure ResolutionFailure where
  argcount : Nat
  deriving Repr, DecidableEq

/-- Modelled from the spec (§4.4): the overload resolver
(`function_detail::overloaded_function`, not under `src/`) attempts each
candidate in registration order and invokes the first whose argument count
and argument kinds accept conversion; it raises an Overload Resolution Error
if none accepts. -/
def resolve (cs : List Candidate) (args : List Val) :
    Except ResolutionFailure (List Val) :=
  match cs with
  | [] => Except.error ⟨args.length⟩
  | c :: rest =>
      if accepts c args then Except.ok (c.behavior args) else resolve rest args

/-- Modelled from the spec (§4.4): one overload attempt reads the top `n`
argument slots and runs the arity and checker tests; the stack is restored to
its pre-attempt state whether or not the candidate matched. -/
def attemptMatch (c : Candidate) (st : Stack) (n : Nat) : Bool × Stack :=
  (accepts c (List.drop (Stack.gettop st - n) st), st)

/-- Modelled from the spec (§4.4): the observable stack after an overload-set
call whose arguments sit on top of `base`: the winning candidate pops the
arguments and pushes its results; on resolution failure the error is raised
with the arguments still in place. -/
def resolveStack (cs : List Candidate) (base : Stack) (args : List Val) : Stack :=
  match resolve cs args with
  | Except.ok rs => base ++ rs
  | Except.error _ => base ++ args

/-- Registration-order skipping: a candidate that does not accept the
arguments contributes nothing to resolution. -/
theorem resolve_skip (cs1 : List Candidate) (c : Candidate) (cs2 : List Candidate)
    (args : List Val) (h : accepts c args = false) :
    resolve (cs1 ++ c :: cs2) args = resolve (cs1 ++ cs2) args := by
  induction cs1 with
  | nil => simp [resolve, h]
  | cons d rest ih =>
      by_cases hd : accepts d args <;> simp [resolve, hd, ih]

/-- The overload (int) from the test scenario: returns 1. -/
def candInt : Candidate := ⟨[PTy.pint], fun _ => [Val.vint 1]⟩

/-- The overload (string) from the test scenario: returns "string: " prefixed
to its argument. -/
def candStr : Candidate :=
  ⟨[PTy.pstr], fun args =>
    match args with
    | [Val.vstr s] => [Val.vstr ("string: " ++ s)]
    | _ => []⟩

/-- The overload (int, int) from the test scenario: returns 2. -/
def candIntInt : Candidate := ⟨[PTy.pint, PTy.pint], fun _ => [Val.vint 2]⟩

/-- The ordered overload set (int), (string), (int, int). -/
def overloadDemo : List Candidate := [candInt, candStr, candIntInt]

/-- C2: an overload-set call invokes the first candidate in registration
order whose argument count and argument kinds accept conversion, and raises
an Overload Resolution Error iff no candidate accepts; with overloads (int),
(string), (int,int), a one-string-argument call selects the string overload
and a call with (1, 2, "x") raises a resolution error. -/
theorem c2_overload_first_match :
    (∀ cs args, resolve cs args =
        match cs.find? (fun c => accepts c args) with
        | some c => Except.ok (c.behavior args)
        | none => Except.error ⟨args.length⟩)
    ∧ (∀ cs args, (∃ e, resolve cs args = Except.error e) ↔
        ∀ c ∈ cs, accepts c args = false)
    ∧ resolve overloadDemo [Val.vstr "bark"] = Except.ok [Val.vstr "string: bark"]
    ∧ resolve overloadDemo [Val.vint 1, Val.vint 2, Val.vstr "x"] =
        Except.error ⟨3⟩ := by
  have hmain : ∀ cs args, resolve cs args =
      match cs.find? (fun c => accepts c args) with
      | some c => Except.ok (c.behavior args)
      | none => Except.error ⟨args.length⟩ := by
    intro cs args
    induction cs with
    | nil => rfl
    | cons c rest ih =>
        by_cases h : accepts c args
        · simp [resolve, h, List.find?_cons_of_pos]
        · rw [List.find?_cons_of_neg _ (by simp [h])]
          simp [resolve, h, ih]
  refine ⟨hmain, ?_, by rfl, by rfl⟩
  intro cs args
  rw [hmain]
  cases hf : cs.find? (fun c => accepts c args) with
  | some c =>
      constructor
      · rintro ⟨e, he⟩
        exact absurd he (by simp)
      · intro hall
        have hc0 := List.find?_some hf
        have hc : accepts c args = true := hc0
        have hmem : c ∈ cs := List.mem_of_find?_eq_some hf
        have := hall c hmem
        rw [this] at hc
        cases hc
  | none =>
      rw [List.find?_eq_none] at hf
      constructor
      · intro _ c hc
        simpa using hf c hc
      · intro _
        exact ⟨⟨args.length⟩, rfl⟩

/-- C2, witness: the first-match characterisation at the string-call
scenario input. -/
theorem c2_overload_first_match_witness :
    resolve overloadDemo [Val.vstr "bark"] =
      match overloadDemo.find? (fun c => accepts c [Val.vstr "bark"]) with
      | some c => Except.ok (c.behavior [Val.vstr "bark"])
      | none => Except.error ⟨[Val.vstr "bark"].length⟩ :=
  c2_overload_first_match.1 overloadDemo [Val.vstr "bark"]

/-- C6: a failed overload attempt leaves the stack at its pre-attempt height,
so the next candidate is tried from the same stack state, and the resolution
outcome and final observable stack are the same as in a run where the failed
candidate was never registered. -/
theorem c6_failed_attempt_transparent :
    (∀ c st n, ((attemptMatch c st n).2).gettop = st.gettop)
    ∧ (∀ cs1 c cs2 args, accepts c args = false →
        resolve (cs1 ++ c :: cs2) args = resolve (cs1 ++ cs2) args)
    ∧ (∀ cs1 c cs2 base args, accepts c args = false →
        resolveStack (cs1 ++ c :: cs2) base args =
          resolveStack (cs1 ++ cs2) base args) := by
  refine ⟨fun c st n => rfl, resolve_skip, ?_⟩
  intro cs1 c cs2 base args h
  unfold resolveStack
  rw [resolve_skip cs1 c cs2 args h]

/-- C6, witness: dropping the non-accepting (int,int) overload from the set
does not change resolution of a one-string-argument call. -/
theorem c6_failed_attempt_transparent_witness :
    accepts candIntInt [Val.vstr "bark"] = false ∧
      resolve ([candInt] ++ candIntInt :: [candStr]) [Val.vstr "bark"] =
        resolve ([candInt] ++ [candStr]) [Val.vstr "bark"] :=
  ⟨by decide,
   c6_failed_attempt_transparent.2.1 [candInt] candIntInt [candStr]
     [Val.vstr "bark"] (by decide)⟩

/-- The shape of a receiver supplied at bind time together with a
member-function pointer: a raw pointer, a `std::reference_wrapper`, or a
plain object value. -/
inductive ReceiverKind where
  | rkPointer
  | rkRefWrapper
  | rkValue
  deriving Repr, DecidableEq

/-- The `is_reference` dispatch of
`pusher<function_sig<...>>::set(lua_State*, R (C::*)(Args...), T&&)`
(src/sol/function.hpp): true iff `meta::Unqualified<T>` is a specialisation
of `std::reference_wrapper` or `std::is_pointer<T>::value` holds. `T` is
deduced from a forwarding reference, so for an lvalue pointer argument `T` is
an lvalue reference to a pointer and `std::is_pointer<T>` is false; the
reference-wrapper test strips qualifiers and holds for any value category. -/
def is_reference (k : ReceiverKind) (isLvalue : Bool) : Bool :=
  (k == ReceiverKind.rkRefWrapper) || (k == ReceiverKind.rkPointer && !isLvalue)

/-- The receiver part of a call-state blob: either the receiver's address
(the member-function-pointer bytes plus the address pushed as upvalues by
`set_fx(std::true_type, ...)`, or a pointer copied into a
`member_function` blob), or a by-value snapshot of the receiver object's
state at bind time. -/
inductive ReceiverStore where
  | storedAddr (addr : Nat)
  | storedCopy (snapshot : Int)
  deriving Repr, DecidableEq

/-- Binding a member-function pointer with a receiver
(`pusher<function_sig<...>>::set` → `set_reference_fx` → `set_fx`,
src/sol/function.hpp). `heap` maps object addresses to their current state.
When `is_reference` holds, `set_fx(std::true_type, ...)` stores the
member-function-pointer bytes and the receiver's `void*` address as upvalues.
Otherwise `set_reference_fx(std::false_type, ...)` copies the receiver
argument into a `function_detail::member_function` blob: for an (lvalue)
pointer receiver that copy is the pointer itself, i.e. still the address; for
a plain object it is a by-value snapshot of the object. The invocation
semantics of the two trampolines (`upvalue_member_function`,
`member_function`) are not under `src/`; modelled from the spec (§3
Call-State Blob, §4.3 case 3). -/
def bindReceiver (k : ReceiverKind) (isLvalue : Bool) (addr : Nat)
    (heap : Nat → Int) : ReceiverStore :=
  if is_reference k isLvalue then ReceiverStore.storedAddr addr
  else
    match k with
    | ReceiverKind.rkPointer => ReceiverStore.storedAddr addr
    | ReceiverKind.rkRefWrapper => ReceiverStore.storedAddr addr
    | ReceiverKind.rkValue => ReceiverStore.storedCopy (heap addr)

/-- Modelled from the spec (§4.3 case 3): the receiver state a later call
through the bound function observes, given the heap at call time: the live
object's state when an address was stored, the bind-time snapshot when the
receiver was copied by value. -/
def observeReceiver (s : ReceiverStore) (heap : Nat → Int) : Int :=
  match s with
  | ReceiverStore.storedAddr a => heap a
  | ReceiverStore.storedCopy v => v

/-- C3: binding a member-function pointer with a pointer or
reference-wrapper receiver stores only the member-function-pointer bytes and
the receiver's address, so host-side mutations of the receiver after binding
are observed by later calls; binding with a plain value receiver copies it
into the call-state blob, so host-side mutations of the original after
binding are not observed. -/
theorem c3_receiver_binding (k : ReceiverKind) (isLvalue : Bool) (addr : Nat)
    (bindHeap callHeap : Nat → Int) :
    (k ≠ ReceiverKind.rkValue →
        bindReceiver k isLvalue addr bindHeap = ReceiverStore.storedAddr addr
        ∧ observeReceiver (bindReceiver k isLvalue addr bindHeap) callHeap =
            callHeap addr)
    ∧ (k = ReceiverKind.rkValue →
        bindReceiver k isLvalue addr bindHeap =
            ReceiverStore.storedCopy (bindHeap addr)
        ∧ observeReceiver (bindReceiver k isLvalue addr bindHeap) callHeap =
            bindHeap addr) := by
  constructor
  · intro hk
    cases k with
    | rkValue => exact absurd rfl hk
    | rkPointer => cases isLvalue <;> exact ⟨rfl, rfl⟩
    | rkRefWrapper => exact ⟨rfl, rfl⟩
  · intro hk
    subst hk
    exact ⟨rfl, rfl⟩

/-- C3, witness: a pointer receiver bound by rvalue observes a post-binding
mutation (heap value 3 at call time, 0 at bind time); the `storedAddr` shape
is also exhibited. -/
theorem c3_receiver_binding_witness :
    ReceiverKind.rkPointer ≠ ReceiverKind.rkValue ∧
      observeReceiver
        (bindReceiver ReceiverKind.rkPointer false 5 (fun _ => 0))
        (fun _ => 3) = (fun _ => (3 : Int)) 5 :=
  ⟨by decide,
   (c3_receiver_binding ReceiverKind.rkPointer false 5 (fun _ => 0)
      (fun _ => 3)).1 (by decide) |>.2⟩

/-- A host callable as the binder sees it: its behaviour, and whether the
bare type is convertible to a plain function pointer of the deduced
signature (`std::is_convertible<raw_fx_t, fx_ptr_t>`,
src/sol/function.hpp `set_memfx`). -/
structure HostCallable where
  behavior : LuaCallee
  convertibleToFnPtr : Bool

/-- What the binder stored for a callable: a plain function pointer pushed as
upvalue bytes (`set_fx(std::false_type, ...)`), or a heap-allocated
`functor_function` blob holding the whole closure
(`set_isconvertible_fx(std::false_type, ...)`). In both cases the stored
entity invokes the callable's behaviour; for the convertible case this is the
C++ guarantee that a captureless closure's function-pointer conversion calls
the same body (spec §4.3 case 4: "degrade to case 1"). -/
inductive BoundFn where
  | plainFn (f : LuaCallee)
  | functorBlob (f : LuaCallee)

/-- The `set_isconvertible_fx` dispatch of src/sol/function.hpp: when the
callable is convertible to a plain function pointer, `detail::unwrap` yields
the pointer and the plain-function path `set(L, fxptr)` is taken; otherwise
the callable is copied into a `functor_function` blob. -/
def set_isconvertible_fx (c : HostCallable) : BoundFn :=
  if c.convertibleToFnPtr then BoundFn.plainFn c.behavior
  else BoundFn.functorBlob c.behavior

/-- Modelled from the spec (§4.3 trampoline contract): invoking either stored
form through its trampoline (`upvalue_free_function::call` or
`function_detail::call` on a `functor_function`; neither is under `src/`)
pops nothing here (arguments given directly), invokes the underlying
callable, and pushes its results onto the base stack. -/
def runBound (b : BoundFn) (base : Stack) (args : List Val) : Stack :=
  match b with
  | BoundFn.plainFn f => base ++ f args
  | BoundFn.functorBlob f => base ++ f args

/-- C8: a stateless closure convertible to a plain function pointer of the
deduced signature is bound through the plain-function path (the converted
pointer is stored), and the resulting runtime-visible callable is
observationally equivalent to binding the same closure through the
stateful-functor path: for all stacks and argument lists both produce the
same results. -/
theorem c8_stateless_degrade (c : HostCallable)
    (h : c.convertibleToFnPtr = true) :
    set_isconvertible_fx c = BoundFn.plainFn c.behavior
    ∧ ∀ base args,
        runBound (set_isconvertible_fx c) base args =
          runBound (BoundFn.functorBlob c.behavior) base args := by
  constructor
  · unfold set_isconvertible_fx
    rw [h]
    rfl
  · intro base args
    unfold set_isconvertible_fx runBound
    rw [h]
    rfl

/-- C8, witness: a concrete convertible callable takes the plain-function
path and agrees with the functor path on a concrete stack and argument
list. -/
theorem c8_stateless_degrade_witness :
    ({ behavior := fun args => args, convertibleToFnPtr := true } :
        HostCallable).convertibleToFnPtr = true ∧
      runBound (set_isconvertible_fx
          { behavior := fun args => args, convertibleToFnPtr := true })
          [Val.vnil] [Val.vint 4] =
        runBound (BoundFn.functorBlob (fun args => args)) [Val.vnil] [Val.vint 4] :=
  ⟨rfl,
   (c8_stateless_degrade
      { behavior := fun args => args, convertibleToFnPtr := true } rfl).2
     [Val.vnil] [Val.vint 4]⟩

/-- The ownership mode of an opaque object record (spec §4.5). -/
inductive Ownership where
  | ownedValue
  | rawAlias
  | sharedOwner
  deriving Repr, DecidableEq

/-- Modelled from the spec (§4.5; the usertype lifetime manager is not under
`src/`): one opaque host-object record: its ownership mode, whether the
runtime has reclaimed it, and how many times its destructor /
shared-ownership release has run. -/
structure ObjRecord where
  mode : Ownership
  reclaimed : Bool
  finalizeCount : Nat
  deriving Repr, DecidableEq

/-- A freshly bound record: not yet reclaimed, finalizer never run. -/
def freshRecord (m : Ownership) : ObjRecord := ⟨m, false, 0⟩

/-- Modelled from the spec (§4.5): the finalizer callback the manager
registers with the runtime: on first reclamation it runs the destructor or
shared release (never for a raw-pointer alias) and marks the record
reclaimed; a notification for an already reclaimed record does nothing, so
the release runs exactly once even under non-deterministic reclamation. -/
def reclaimRecord (r : ObjRecord) : ObjRecord :=
  if r.reclaimed then r
  else
    match r.mode with
    | Ownership.rawAlias => { r with reclaimed := true }
    | _ => { r with reclaimed := true, finalizeCount := r.finalizeCount + 1 }

/-- Apply `f` to the element at position `i`, if present. -/
def modifyAt {α : Type} : List α → Nat → (α → α) → List α
  | [], _, _ => []
  | x :: xs, 0, f => f x :: xs
  | x :: xs, Nat.succ i, f => x :: modifyAt xs i f

/-- A runtime reclamation event: a (non-deterministically timed, possibly
repeated) collector notification for one record, or the destruction of the
owning runtime state, which reclaims every remaining record. -/
inductive MgrEvent where
  | reclaim (i : Nat)
  | destroyState

/-- Modelled from the spec (§4.5): the lifetime manager's reaction to one
runtime event. -/
def stepMgr (recs : List ObjRecord) : MgrEvent → List ObjRecord
  | MgrEvent.reclaim i => modifyAt recs i reclaimRecord
  | MgrEvent.destroyState => recs.map reclaimRecord

/-- The manager's records after a sequence of runtime events. -/
def runMgr (recs : List ObjRecord) (evs : List MgrEvent) : List ObjRecord :=
  evs.foldl stepMgr recs

/-- Modelled from the spec (§4.5, Scenario 5): the host's shared reference
count for a handle whose pre-binding count is `p`: each live, unreleased
shared-owner record pins one extra reference (the manager's stored copy). -/
def hostUseCount (p : Nat) (recs : List ObjRecord) : Nat :=
  p + (recs.filter
        (fun r => r.mode == Ownership.sharedOwner && !r.reclaimed)).length

/-- The per-record lifetime invariant: the finalize count is 1 exactly for a
reclaimed non-alias record, 0 otherwise. -/
def RecInv (r : ObjRecord) : Prop :=
  r.finalizeCount =
    if r.reclaimed = true ∧ r.mode ≠ Ownership.rawAlias then 1 else 0

theorem reclaimRecord_mode (r : ObjRecord) : (reclaimRecord r).mode = r.mode := by
  by_cases h : r.reclaimed = true
  · simp [reclaimRecord, h]
  · cases hm : r.mode <;> simp [reclaimRecord, h, hm]

theorem reclaimRecord_reclaimed (r : ObjRecord) :
    (reclaimRecord r).reclaimed = true := by
  by_cases h : r.reclaimed = true
  · simp [reclaimRecord, h]
  · cases hm : r.mode <;> simp [reclaimRecord, h, hm]

theorem reclaimRecord_inv (r : ObjRecord) (h : RecInv r) :
    RecInv (reclaimRecord r) := by
  unfold RecInv at h ⊢
  by_cases hr : r.reclaimed = true
  · simp only [reclaimRecord, hr, if_true]
    simpa [hr] using h
  · have hr' : r.reclaimed = false := by
      cases hb : r.reclaimed
      · rfl
      · exact absurd hb hr
    rw [hr'] at h
    simp only [Bool.false_eq_true, false_and, if_false] at h
    cases hm : r.mode <;>
      simp [reclaimRecord, hr', hm, h]

theorem mem_modifyAt {α : Type} (l : List α) (i : Nat) (f : α → α) (x : α)
    (hx : x ∈ modifyAt l i f) : x ∈ l ∨ ∃ y, y ∈ l ∧ x = f y := by
  induction l generalizing i with
  | nil => simp [modifyAt] at hx
  | cons a as ih =>
      cases i with
      | zero =>
          simp only [modifyAt, List.mem_cons] at hx
          rcases hx with h | h
          · exact Or.inr ⟨a, List.mem_cons_self a as, h⟩
          · exact Or.inl (List.mem_cons_of_mem a h)
      | succ j =>
          simp only [modifyAt, List.mem_cons] at hx
          rcases hx with h | h
          · exact Or.inl (h ▸ List.mem_cons_self a as)
          · rcases ih j h with h2 | ⟨y, hy, hxy⟩
            · exact Or.inl (List.mem_cons_of_mem a h2)
            · exact Or.inr ⟨y, List.mem_cons_of_mem a hy, hxy⟩

/-- The per-record invariant is preserved by any event sequence. -/
theorem runMgr_inv (evs : List MgrEvent) :
    ∀ recs : List ObjRecord, (∀ r ∈ recs, RecInv r) →
      ∀ r ∈ runMgr recs evs, RecInv r := by
  induction evs with
  | nil => intro recs h; exact h
  | cons e rest ih =>
      intro recs h
      have hstep : ∀ r ∈ stepMgr recs e, RecInv r := by
        intro r hr
        cases e with
        | reclaim i =>
            rcases mem_modifyAt recs i reclaimRecord r hr with hmem | ⟨y, hy, hxy⟩
            · exact h r hmem
            · exact hxy ▸ reclaimRecord_inv y (h y hy)
        | destroyState =>
            simp only [stepMgr] at hr
            rcases List.mem_map.mp hr with ⟨y, hy, hxy⟩
            exact hxy ▸ reclaimRecord_inv y (h y hy)
      exact ih (stepMgr recs e) hstep

/-- C5: for every value-owned or shared-owner record, the destructor or
shared release runs exactly once per instance once the runtime reclaims it —
at the latest when the owning runtime state is destroyed — even under
arbitrary (repeated, reordered) reclamation notifications; raw-pointer
aliases are never destroyed by the manager; and the host's shared reference
count returns exactly to its pre-binding value after the runtime state is
destroyed (binding having pinned exactly one extra reference). -/
theorem c5_lifetime_exactly_once (p : Nat) (recs : List ObjRecord)
    (evs : List MgrEvent)
    (hfresh : ∀ r ∈ recs, r.reclaimed = false ∧ r.finalizeCount = 0) :
    (∀ r ∈ runMgr recs (evs ++ [MgrEvent.destroyState]),
        (r.mode ≠ Ownership.rawAlias → r.finalizeCount = 1)
        ∧ (r.mode = Ownership.rawAlias → r.finalizeCount = 0))
    ∧ hostUseCount p (runMgr recs (evs ++ [MgrEvent.destroyState])) = p
    ∧ hostUseCount p (recs ++ [freshRecord Ownership.sharedOwner]) =
        hostUseCount p recs + 1 := by
  have hinv0 : ∀ r ∈ recs, RecInv r := by
    intro r hr
    obtain ⟨h1, h2⟩ := hfresh r hr
    unfold RecInv
    rw [h1, h2]
    simp
  have hinv : ∀ r ∈ runMgr recs evs, RecInv r := runMgr_inv evs recs hinv0
  have hfinal : runMgr recs (evs ++ [MgrEvent.destroyState]) =
      (runMgr recs evs).map reclaimRecord := by
    unfold runMgr
    rw [List.foldl_append]
    rfl
  refine ⟨?_, ?_, ?_⟩
  · intro r hr
    rw [hfinal] at hr
    rcases List.mem_map.mp hr with ⟨y, hy, hxy⟩
    subst hxy
    have hi := reclaimRecord_inv y (hinv y hy)
    unfold RecInv at hi
    constructor
    · intro hmode
      rw [if_pos ⟨reclaimRecord_reclaimed y, hmode⟩] at hi
      exact hi
    · intro hmode
      rw [if_neg (fun hc => hc.2 hmode)] at hi
      exact hi
  · rw [hfinal]
    unfold hostUseCount
    have hnil : ((runMgr recs evs).map reclaimRecord).filter
        (fun r => r.mode == Ownership.sharedOwner && !r.reclaimed) = [] := by
      rw [List.filter_eq_nil_iff]
      intro a ha
      rcases List.mem_map.mp ha with ⟨y, hy, hxy⟩
      subst hxy
      simp [reclaimRecord_reclaimed]
    rw [hnil]
    rfl
  · unfold hostUseCount freshRecord
    rw [List.filter_append]
    simp [List.filter]
    omega

/-- C5, witness: three fresh records (owned, alias, shared) surviving a
duplicate reclamation of the first and a reclamation of the third, then
state destruction: the shared count returns to its pre-binding value 2. -/
theorem c5_lifetime_exactly_once_witness :
    (∀ r ∈ [freshRecord Ownership.ownedValue, freshRecord Ownership.rawAlias,
            freshRecord Ownership.sharedOwner],
        r.reclaimed = false ∧ r.finalizeCount = 0) ∧
      hostUseCount 2 (runMgr
        [freshRecord Ownership.ownedValue, freshRecord Ownership.rawAlias,
         freshRecord Ownership.sharedOwner]
        ([MgrEvent.reclaim 0, MgrEvent.reclaim 0, MgrEvent.reclaim 2] ++
          [MgrEvent.destroyState])) = 2 :=
  ⟨by decide,
   (c5_lifetime_exactly_once 2
      [freshRecord Ownership.ownedValue, freshRecord Ownership.rawAlias,
       freshRecord Ownership.sharedOwner]
      [MgrEvent.reclaim 0, MgrEvent.reclaim 0, MgrEvent.reclaim 2]
      (by decide)).2.1⟩

/-- Modelled from the spec (§4.2; the container pusher of `stack.hpp` is not
under `src/`): the table built for an ordered container: each element `i`
(0-based in the source container) is assigned to integer key `s + i`; the
whole container is pushed with `s = 1`. The table is fresh, so these are its
only entries. -/
def pushSeq (s : Nat) : List Val → List (Nat × Val)
  | [] => []
  | v :: vs => (s, v) :: pushSeq (s + 1) vs

/-- Pushing an ordered container creates a fresh table with integer keys
`1..N` holding the elements in order. -/
def pushContainer (xs : List Val) : List (Nat × Val) := pushSeq 1 xs

/-- Table lookup by integer key: the first entry with that key, if any. -/
def lookupT (t : List (Nat × Val)) (k : Nat) : Option Val :=
  (t.find? (fun e => e.1 == k)).map (fun e => e.2)

/-- Modelled from the spec (§4.2): the ordered-container getter reads
sequential integer keys starting at `i` until a gap is found; the fuel is the
number of remaining reads, bounded by the table size. -/
def getSeqAux (t : List (Nat × Val)) : Nat → Nat → List Val
  | 0, _ => []
  | Nat.succ fuel, i =>
      match lookupT t i with
      | some v => v :: getSeqAux t fuel (i + 1)
      | none => []

/-- Modelled from the spec (§4.2): retrieving an ordered container from a
table: read keys `1, 2, ...` until a gap (at most `t.length` sequential keys
can exist). -/
def getContainer (t : List (Nat × Val)) : List Val :=
  getSeqAux t t.length 1

theorem pushSeq_length (xs : List Val) : ∀ s, (pushSeq s xs).length = xs.length := by
  induction xs with
  | nil => intro s; rfl
  | cons v vs ih => intro s; simp [pushSeq, ih]


/-- Keys of the pushed table: key `k` holds element `k - s` when
`s ≤ k < s + N`, and nothing otherwise — so the container's only entries are
the integer keys `s .. s + N - 1` in order. -/
theorem lookupT_pushSeq (xs : List Val) : ∀ s k,
    lookupT (pushSeq s xs) k =
      if s ≤ k ∧ k < s + xs.length then xs.get? (k - s) else none := by
  induction xs with
  | nil =>
      intro s k
      have hno : ¬(s ≤ k ∧ k < s + ([] : List Val).length) := by
        intro hc
        simp only [List.length_nil] at hc
        omega
      rw [if_neg hno]
      rfl
  | cons v vs ih =>
      intro s k
      simp only [List.length_cons]
      by_cases hk : s = k
      · subst hk
        have hv : lookupT (pushSeq s (v :: vs)) s = some v := by
          simp [pushSeq, lookupT, List.find?]
        rw [hv, if_pos ⟨Nat.le_refl s, by omega⟩]
        simp
      · have hbeq : (s == k) = false := by
          simp only [beq_eq_false_iff_ne, ne_eq]
          exact hk
        have hlook : lookupT (pushSeq s (v :: vs)) k =
            lookupT (pushSeq (s + 1) vs) k := by
          simp [pushSeq, lookupT, List.find?, hbeq]
        rw [hlook, ih (s + 1) k]
        by_cases h1 : s + 1 ≤ k ∧ k < s + 1 + vs.length
        · rw [if_pos h1, if_pos (⟨by omega, by omega⟩ : s ≤ k ∧ k < s + (vs.length + 1))]
          have hks : k - s = (k - (s + 1)) + 1 := by omega
          rw [hks]
          rfl
        · have h2 : ¬(s ≤ k ∧ k < s + (vs.length + 1)) := by
            intro hc
            exact h1 ⟨by omega, by omega⟩
          rw [if_neg h1, if_neg h2]

/-- An entry whose key is below the probe sequence is invisible to
sequential reading. -/
theorem getSeqAux_cons_lt (s : Nat) (v : Val) (t : List (Nat × Val)) :
    ∀ fuel i, s < i → getSeqAux ((s, v) :: t) fuel i = getSeqAux t fuel i := by
  intro fuel
  induction fuel with
  | zero => intro i _; rfl
  | succ n ih =>
      intro i hi
      have hbeq : (s == i) = false := by
        simp only [beq_eq_false_iff_ne, ne_eq]
        omega
      have hlook : lookupT ((s, v) :: t) i = lookupT t i := by
        simp [lookupT, List.find?, hbeq]
      cases h : lookupT t i with
      | none => simp [getSeqAux, hlook, h]
      | some w => simp [getSeqAux, hlook, h, ih (i + 1) (by omega)]

/-- Sequential reading starting at `s` recovers a container pushed at `s`. -/
theorem getSeqAux_pushSeq (xs : List Val) : ∀ fuel s, xs.length ≤ fuel →
    getSeqAux (pushSeq s xs) fuel s = xs := by
  induction xs with
  | nil =>
      intro fuel s _
      cases fuel with
      | zero => rfl
      | succ n => simp [getSeqAux, pushSeq, lookupT]
  | cons v vs ih =>
      intro fuel s hf
      cases fuel with
      | zero => simp at hf
      | succ n =>
          have hv : lookupT (pushSeq s (v :: vs)) s = some v := by
            simp [pushSeq, lookupT, List.find?]
          have hlen : vs.length ≤ n := by
            simp only [List.length_cons] at hf
            omega
          have hskip : getSeqAux (pushSeq s (v :: vs)) n (s + 1) =
              getSeqAux (pushSeq (s + 1) vs) n (s + 1) :=
            getSeqAux_cons_lt s v (pushSeq (s + 1) vs) n (s + 1) (by omega)
          simp only [getSeqAux, hv]
          rw [hskip, ih n (s + 1) hlen]

/-- The pushed container read back equals the source container. -/
theorem getContainer_pushContainer (xs : List Val) :
    getContainer (pushContainer xs) = xs := by
  unfold getContainer pushContainer
  rw [pushSeq_length]
  exact getSeqAux_pushSeq xs xs.length 1 (Nat.le_refl _)

/-- The source container of Scenario 4: ten sequential integers 1..10. -/
def seq10 : List Val :=
  (List.range' 1 10).map (fun n => Val.vint (Int.ofNat n))

/-- C7: pushing an ordered container of `N` elements creates a fresh table
whose integer keys `1..N` hold the elements in order and which has no other
entries; for the ten-sequential-ints container the script-visible table has
size 10 and its element at key 3 equals the source's element 3 (1-based);
and retrieving the table back yields a container equal to the source (so of
size 10 with matching elements). -/
theorem c7_ordered_container_roundtrip :
    (∀ xs : List Val, ∀ k, lookupT (pushContainer xs) k =
        if 1 ≤ k ∧ k < 1 + xs.length then xs.get? (k - 1) else none)
    ∧ (∀ xs : List Val, (pushContainer xs).length = xs.length)
    ∧ (∀ xs : List Val, getContainer (pushContainer xs) = xs)
    ∧ (pushContainer seq10).length = 10
    ∧ lookupT (pushContainer seq10) 3 = seq10.get? 2
    ∧ getContainer (pushContainer seq10) = seq10
    ∧ (getContainer (pushContainer seq10)).length = 10 := by
  refine ⟨fun xs k => lookupT_pushSeq xs 1 k,
          fun xs => pushSeq_length xs 1,
          getContainer_pushContainer,
          by decide, by decide,
          getContainer_pushContainer seq10,
          by decide⟩

/-- C7, witness: the key-range characterisation evaluated at the
scenario container and key 3. -/
theorem c7_ordered_container_roundtrip_witness :
    lookupT (pushContainer seq10) 3 =
      if 1 ≤ 3 ∧ 3 < 1 + seq10.length then seq10.get? (3 - 1) else none :=
  c7_ordered_container_roundtrip.1 seq10 3

/-- Modelled from the spec (§5; the `thread_status` enum lives in a header
not under `src/`): the raw status `lua_status` reports for a secondary
context — normal (`LUA_OK`), suspended (`LUA_YIELD`), or an error status.
The runtime itself never reports `dead`; `dead` is the extra sol-side
value. -/
inductive RawStatus where
  | ok
  | yielded
  | errRun
  | errMemory
  | errHandler
  deriving Repr, DecidableEq

/-- The sol-side thread status: the raw statuses plus `dead`. -/
inductive ThreadStatus where
  | normal
  | suspended
  | errRuntime
  | errMemory
  | errHandler
  | dead
  deriving Repr, DecidableEq

/-- The `static_cast<thread_status>(lua_status(lthread))` step of
`thread::status` (src/sol/thread.hpp): each raw status maps to its
corresponding thread status; no raw status maps to `dead`. -/
def castStatus : RawStatus → ThreadStatus
  | RawStatus.ok => ThreadStatus.normal
  | RawStatus.yielded => ThreadStatus.suspended
  | RawStatus.errRun => ThreadStatus.errRuntime
  | RawStatus.errMemory => ThreadStatus.errMemory
  | RawStatus.errHandler => ThreadStatus.errHandler

/-- A secondary execution context as `thread::status` observes it: its raw
runtime status and its stack height (`lua_gettop(lthread)`). -/
structure ThreadCtx where
  raw : RawStatus
  top : Nat

/-- `thread::status` from src/sol/thread.hpp: cast the raw status; if the
cast status is not normal and the thread's stack is empty, report dead;
otherwise return the cast status unchanged. -/
def threadStatus (c : ThreadCtx) : ThreadStatus :=
  let lstat := castStatus c.raw
  if lstat ≠ ThreadStatus.normal ∧ c.top = 0 then ThreadStatus.dead
  else lstat

theorem castStatus_ne_dead (r : RawStatus) :
    castStatus r ≠ ThreadStatus.dead := by
  cases r <;> simp [castStatus]

/-- C9: `thread::status` returns dead exactly when the context's raw status
is different from normal and the context's stack is empty; in every other
case it returns the (cast) raw status unchanged — in particular a context
whose raw status is normal is never reported dead, regardless of its stack
height. -/
theorem c9_thread_status (c : ThreadCtx) :
    (threadStatus c = ThreadStatus.dead ↔
      (castStatus c.raw ≠ ThreadStatus.normal ∧ c.top = 0))
    ∧ (¬(castStatus c.raw ≠ ThreadStatus.normal ∧ c.top = 0) →
        threadStatus c = castStatus c.raw)
    ∧ (castStatus c.raw = ThreadStatus.normal →
        threadStatus c = ThreadStatus.normal) := by
  simp only [threadStatus]
  by_cases h : castStatus c.raw ≠ ThreadStatus.normal ∧ c.top = 0
  · rw [if_pos h]
    exact ⟨⟨fun _ => h, fun _ => rfl⟩,
           fun hc => absurd h hc,
           fun hn => absurd hn h.1⟩
  · rw [if_neg h]
    exact ⟨⟨fun hd => absurd hd (castStatus_ne_dead c.raw), fun hc => absurd hc h⟩,
           fun _ => rfl,
           fun hn => hn⟩

/-- C9, witness: a suspended context with an empty stack is reported dead. -/
theorem c9_thread_status_witness :
    threadStatus ⟨RawStatus.yielded, 0⟩ = ThreadStatus.dead ↔
      (castStatus RawStatus.yielded ≠ ThreadStatus.normal ∧ (0 : Nat) = 0) :=
  (c9_thread_status ⟨RawStatus.yielded, 0⟩).1

/-- The state of `sol::table_iterator` (src/sol/table_iterator.hpp): the
underlying table's key/value pairs in `lua_next` traversal order together
with how many of them have been consumed (`pos`, modelling the key left on
the stack), the current `kvp`, and the `idx` counter that `operator==`
compares. -/
structure TableIter where
  tbl : List (Val × Val)
  pos : Nat
  kvp : Val × Val
  idx : Int
  deriving Repr, DecidableEq

/-- `lua_next` on the modelled traversal: the pair after the `pos` consumed
ones, or exhaustion. -/
def tnext (it : TableIter) : Option (Val × Val) := it.tbl.get? it.pos

/-- `table_iterator::operator++` (src/sol/table_iterator.hpp): a no-op at
`idx = -1`; otherwise `lua_next` either signals exhaustion (then
`idx := -1`) or yields the next pair (consume it, `++idx`, refresh `kvp`). -/
def iterIncr (it : TableIter) : TableIter :=
  if it.idx = -1 then it
  else
    match tnext it with
    | none => { it with idx := -1 }
    | some p => { it with pos := it.pos + 1, idx := it.idx + 1, kvp := p }

/-- The `table_iterator(ref_t)` constructor (src/sol/table_iterator.hpp):
push the table and a nil key, run `operator++` once starting from the
default member value `idx = 0`, then `--idx`. -/
def beginIter (tbl : List (Val × Val)) : TableIter :=
  let it0 : TableIter := ⟨tbl, 0, (Val.vnil, Val.vnil), 0⟩
  let it1 := iterIncr it0
  { it1 with idx := it1.idx - 1 }

/-- The default-constructed end iterator: `idx = -1`. -/
def endIter : TableIter := ⟨[], 0, (Val.vnil, Val.vnil), -1⟩

/-- `table_iterator::operator==` (src/sol/table_iterator.hpp): compares only
`idx`. -/
def iterEq (a b : TableIter) : Bool := a.idx == b.idx

theorem iterIncr_of_neg (it : TableIter) (h : it.idx = -1) : iterIncr it = it := by
  simp [iterIncr, h]

theorem beginIter_cons (p : Val × Val) (rest : List (Val × Val)) :
    beginIter (p :: rest) = ⟨p :: rest, 1, p, 0⟩ := by
  have h : ¬((0 : Int) = -1) := by decide
  simp [beginIter, iterIncr, tnext, h]

/-- The iterator state after `k` increments over a nonempty table: while
pairs remain it sits at pair `k` with `idx = k` and `pos = k + 1`; once the
pairs run out its `idx` is `-1`. -/
theorem iter_state (t : List (Val × Val)) (ht : t ≠ []) :
    ∀ k : Nat,
      (k < t.length → ∃ kv,
        iterIncr^[k] (beginIter t) = ⟨t, k + 1, kv, (k : Int)⟩)
      ∧ (t.length ≤ k → (iterIncr^[k] (beginIter t)).idx = -1) := by
  intro k
  induction k with
  | zero =>
      obtain ⟨p, rest, rfl⟩ := List.exists_cons_of_ne_nil ht
      constructor
      · intro _
        exact ⟨p, by simp [beginIter_cons]⟩
      · intro hle
        simp at hle
  | succ k ih =>
      constructor
      · intro hk1
        have hk : k < t.length := by omega
        obtain ⟨kv, heq⟩ := ih.1 hk
        rw [Function.iterate_succ_apply', heq]
        have hne : ¬(((k : Nat) : Int) = -1) := by omega
        cases hget : t.get? (k + 1) with
        | none =>
            rw [List.get?_eq_none] at hget
            omega
        | some q =>
            have hget2 : t[k + 1]? = some q := by
              rw [← List.get?_eq_getElem?]
              exact hget
            exact ⟨q, by simp [iterIncr, tnext, hne, hget2]⟩
      · intro hle1
        by_cases hk : t.length ≤ k
        · have hidx := ih.2 hk
          rw [Function.iterate_succ_apply',
              iterIncr_of_neg (iterIncr^[k] (beginIter t)) hidx]
          exact hidx
        · have hk2 : k < t.length := by omega
          have hlen : t.length = k + 1 := by omega
          obtain ⟨kv, heq⟩ := ih.1 hk2
          rw [Function.iterate_succ_apply', heq]
          have hne : ¬(((k : Nat) : Int) = -1) := by omega
          have hget : t[k + 1]? = none := by
            rw [← List.get?_eq_getElem?, List.get?_eq_none]
            omega
          simp [iterIncr, tnext, hne, hget]

/-- C10, counterexample: the iterator constructed over an empty table is
exhausted (there are no pairs to visit), yet its index is `-2`, not `-1`,
and it does not compare equal to the default-constructed end iterator —
the constructor's `--idx` runs after `operator++` already set `idx = -1`. -/
theorem c10_counterexample :
    (beginIter []).idx = -2 ∧ iterEq (beginIter []) endIter = false := by
  decide

/-- C10, amended: `table_iterator` equality compares only the `idx` counter,
not the underlying table or current key: two iterators over (possibly
different) nonempty tables that have each been advanced `k` pairs (with
pairs remaining) compare equal; every iterator exhausted by increment past
the last pair has index `-1` and compares equal to the default-constructed
end iterator, and incrementing an iterator whose index is `-1` leaves it
unchanged. However, the iterator constructed over an empty table — though it
has no pairs to visit — has index `-2` and does not compare equal to the end
iterator. -/
theorem c10_amended :
    (∀ a b : TableIter, iterEq a b = (a.idx == b.idx))
    ∧ (∀ t1 t2 : List (Val × Val), ∀ k : Nat, k < t1.length → k < t2.length →
        iterEq (iterIncr^[k] (beginIter t1)) (iterIncr^[k] (beginIter t2)) = true)
    ∧ (∀ t : List (Val × Val), t ≠ [] → ∀ k : Nat, t.length ≤ k →
        (iterIncr^[k] (beginIter t)).idx = -1
        ∧ iterEq (iterIncr^[k] (beginIter t)) endIter = true)
    ∧ (∀ it : TableIter, it.idx = -1 → iterIncr it = it)
    ∧ ((beginIter []).idx = -2 ∧ iterEq (beginIter []) endIter = false) := by
  refine ⟨fun a b => rfl, ?_, ?_, iterIncr_of_neg, by decide⟩
  · intro t1 t2 k hk1 hk2
    have ht1 : t1 ≠ [] := by
      intro h
      subst h
      simp at hk1
    have ht2 : t2 ≠ [] := by
      intro h
      subst h
      simp at hk2
    obtain ⟨kv1, heq1⟩ := (iter_state t1 ht1 k).1 hk1
    obtain ⟨kv2, heq2⟩ := (iter_state t2 ht2 k).1 hk2
    rw [heq1, heq2]
    simp [iterEq]
  · intro t ht k hk
    have hidx := (iter_state t ht k).2 hk
    refine ⟨hidx, ?_⟩
    simp [iterEq, hidx, endIter]

/-- C10, amended, witness: freshly constructed iterators over two different
one- and two-pair tables (each having visited 0 pairs) compare equal. -/
theorem c10_amended_witness :
    (0 : Nat) < ([(Val.vint 1, Val.vint 2)] : List (Val × Val)).length ∧
      iterEq (iterIncr^[0] (beginIter [(Val.vint 1, Val.vint 2)]))
        (iterIncr^[0] (beginIter
          [(Val.vint 3, Val.vint 4), (Val.vint 5, Val.vint 6)])) = true :=
  ⟨by decide,
   c10_amended.2.1 [(Val.vint 1, Val.vint 2)]
     [(Val.vint 3, Val.vint 4), (Val.vint 5, Val.vint 6)] 0
     (by decide) (by decide)⟩

end Sol
